import Mathlib

/-!
Shallow embedding of `src/main.cpp` of the binary-image-generator repository.

Modelling conventions:
* Pixels are `ℕ` values; at `BIT_DEPTH = 8` a pixel is an `unsigned char`,
  so conversions to the pixel type reduce modulo `2 ^ BIT_DEPTH`
  (C++ unsigned-to-unsigned conversion).
* `size_t` arithmetic is modelled modulo `2 ^ 64`; the unsigned wrap of
  `index - 1` in `counting_sort` and `uniform_sample` is kept exactly.
* The image buffer is a `List ℕ`; a function that inspects the first
  `width * height` pixels works on `List.take (width * height)`, matching
  the C++ loops bounded by `width * height`.
* The `float` ratio is modelled as an exact rational; conversion of a
  nonnegative float to an integer type truncates toward zero, i.e. takes
  the floor.  Real-valued float computations (`sqrt`, the `sqrt2` constant
  in `normal_estimate`) are modelled as exact real arithmetic.
* A C++ read through `operator[]` that may be out of bounds is modelled
  with `List.get?`, so an out-of-bounds read yields `none`.
* The float-to-pixel conversion at the end of `normal_estimate` and
  `weighted_estimate` is undefined behaviour in C++ when the truncated
  value is not representable; it is modelled as an `Option` that is `none`
  exactly in the undefined case.
-/

namespace BinaryImage

/-- The compile-time constant `BIT_DEPTH` (main.cpp line 21): 8-bit pixels. -/
def BIT_DEPTH : ℕ := 8

/-- The modulus of `size_t` arithmetic (64-bit). -/
def SIZE_MOD : ℕ := 2 ^ 64

/-- Conversion of a nonnegative integer value (e.g. a `size_t`) to the
`Pixel` type (`unsigned char` at `BIT_DEPTH = 8`): reduction modulo
`2 ^ BIT_DEPTH`, which is what C++ unsigned-to-unsigned conversion does. -/
def toPixelNat (n : ℕ) : ℕ := n % 2 ^ BIT_DEPTH

/-- Truncation of a nonnegative float value to an unsigned integer type,
as in `size_t cutoff = image_size * ratio` (main.cpp lines 116, 139, 159,
182).  Float arithmetic on the ratio is modelled as exact rational
arithmetic; truncation toward zero of a nonnegative value is the floor. -/
def truncQ (q : ℚ) : ℕ := (Int.floor q).toNat

/-- The accumulation loop shared by `counting_sort` (main.cpp lines
143-145) and `uniform_sample` (lines 186-188):
`while (total < cutoff && index < (1 << BIT_DEPTH)) total += count[index++];`
returning the final value of `index`.  The loop runs at most
`2 ^ BIT_DEPTH` iterations because `index` grows by one each time, so any
fuel of at least `2 ^ BIT_DEPTH + 1` makes the model exact. -/
def walkLoop (count : ℕ → ℕ) (cutoff : ℕ) : ℕ → ℕ → ℕ → ℕ
  | 0, _, index => index
  | fuel + 1, total, index =>
      if total < cutoff ∧ index < 2 ^ BIT_DEPTH then
        walkLoop count cutoff fuel (total + count index) (index + 1)
      else index

/-- The sampling loop of `uniform_sample` (main.cpp line 178):
`for (pixel = 0; pixel < image_size; pixel += sample_rate)` collects the
pixels at indices `0, k, 2k, ...`.  The countdown argument is the number
of further elements to skip before the next sample is taken. -/
def sampleAux (sample_rate : ℕ) : List ℕ → ℕ → List ℕ
  | [], _ => []
  | x :: xs, 0 => x :: sampleAux sample_rate xs (sample_rate - 1)
  | _ :: xs, c + 1 => sampleAux sample_rate xs c

/-- The pixels visited by the strided loop of `uniform_sample`: every
`sample_rate`-th element of the buffer, starting at index 0. -/
def sampleEvery (greyscale : List ℕ) (sample_rate : ℕ) : List ℕ :=
  sampleAux sample_rate greyscale 0

/-- The truncated average pixel computed by `normal_estimate` (main.cpp
lines 57-61) and `weighted_estimate` (lines 85-89):
`Pixel average = total / (width * height);` with `total` the sum of the
first `width * height` pixels; the `size_t` quotient is converted to the
pixel type (modulo `2 ^ BIT_DEPTH`). -/
def averagePixel (greyscale : List ℕ) (width height : ℕ) : ℕ :=
  ((greyscale.take (width * height)).sum / (width * height)) % 2 ^ BIT_DEPTH

/-- The function `counting_sort` (main.cpp lines 131-147).  It builds a
histogram of the first `width * height` pixels, computes
`cutoff = image_size * ratio` (float, truncated), walks the histogram with
`walkLoop`, and returns `std::max((size_t)0, index - 1)` converted to
`Pixel`.  The subtraction `index - 1` is `size_t` arithmetic, so for
`index = 0` it wraps to `2 ^ 64 - 1` and the `max` clamp has no effect. -/
def counting_sort (greyscale : List ℕ) (width height : ℕ) (ratio : ℚ) : ℕ :=
  let image_size := width * height
  let count : ℕ → ℕ := fun v => (greyscale.take image_size).count v
  let cutoff := truncQ ((image_size : ℚ) * ratio)
  let index := walkLoop count cutoff (2 ^ BIT_DEPTH + 1) 0 0
  toPixelNat (max 0 ((index + (SIZE_MOD - 1)) % SIZE_MOD))

/-- The function `std_sort` (main.cpp lines 115-119).  It sorts the buffer
in place ascending with `std::sort` and returns `greyscale[n]` with
`int n = (width * height) * ratio` (float, truncated).  The first
component is the buffer contents after the call; the second is the value
read, `none` when the index is out of bounds. -/
def std_sort (greyscale : List ℕ) (width height : ℕ) (ratio : ℚ) :
    List ℕ × Option ℕ :=
  let image_size := width * height
  let n := truncQ ((image_size : ℚ) * ratio)
  let sorted := (greyscale.take image_size).insertionSort (· ≤ ·)
  (sorted ++ greyscale.drop image_size, sorted.get? n)

/-- The function `nth_element_sort` (main.cpp lines 158-162).  With
`size_t n = (width * height) * ratio`, `std::nth_element` places the
element that sorted order would put at index `n` at that index and
partitions the rest around it; the function returns `greyscale[n]`, which
is therefore the `n`-th element of the sorted order (`none` when out of
bounds).  The unspecified partial reorder of the buffer is modelled as the
fully sorted buffer, one of the permutations `std::nth_element` may leave;
the harness restores the buffer immediately afterwards, so nothing below
depends on that choice. -/
def nth_element_sort (greyscale : List ℕ) (width height : ℕ) (ratio : ℚ) :
    List ℕ × Option ℕ :=
  let image_size := width * height
  let n := truncQ ((image_size : ℚ) * ratio)
  let sorted := (greyscale.take image_size).insertionSort (· ≤ ·)
  (sorted ++ greyscale.drop image_size, sorted.get? n)

/-- The function `uniform_sample` (main.cpp lines 174-190).  Identical to
`counting_sort` except that the histogram only counts every
`sample_rate`-th pixel and the cutoff is
`(image_size / sample_rate) * ratio` with integer division. -/
def uniform_sample (greyscale : List ℕ) (width height sample_rate : ℕ)
    (ratio : ℚ) : ℕ :=
  let image_size := width * height
  let count : ℕ → ℕ :=
    fun v => (sampleEvery (greyscale.take image_size) sample_rate).count v
  let cutoff := truncQ (((image_size / sample_rate : ℕ) : ℚ) * ratio)
  let index := walkLoop count cutoff (2 ^ BIT_DEPTH + 1) 0 0
  toPixelNat (max 0 ((index + (SIZE_MOD - 1)) % SIZE_MOD))

/-- The C++ conversion of a float value to the `Pixel` type at the return
of `normal_estimate` (main.cpp line 72): the value is truncated toward
zero, and the conversion is undefined behaviour when the truncated value
is not representable in the unsigned pixel type, i.e. unless
`-1 < x < 2 ^ BIT_DEPTH`. -/
noncomputable def toPixelR (x : ℝ) : Option ℕ :=
  if -1 < x ∧ x < 2 ^ BIT_DEPTH then some (Int.floor x).toNat else none

/-- The real value `average + z * sigma` computed by `normal_estimate`
(main.cpp lines 56-72) before the final conversion to `Pixel`:
`average` is the truncated mean, `sigma_total` the sum of squared
deviations (`int` subtraction of pixel and average, squared exactly),
`sigma = sqrt(sigma_total * (1 / (width * height)))`, the polynomial
approximation is `ratio + ratio^3 + ratio^5 + ratio^7`, and
`z = sqrt2 * approximation` with the `std::numbers::sqrt2` constant
modelled as the exact real square root of 2. -/
noncomputable def normal_val (greyscale : List ℕ) (width height : ℕ)
    (ratio : ℚ) : ℝ :=
  let image_size := width * height
  let pix := greyscale.take image_size
  let average := averagePixel greyscale width height
  let sigma_total : ℤ := (pix.map (fun p => ((p : ℤ) - (average : ℤ)) ^ 2)).sum
  let sigma : ℝ := Real.sqrt ((sigma_total : ℝ) * (1 / (image_size : ℝ)))
  let approximation : ℝ :=
    (ratio : ℝ) + (ratio : ℝ) ^ 3 + (ratio : ℝ) ^ 5 + (ratio : ℝ) ^ 7
  let z := Real.sqrt 2 * approximation
  (average : ℝ) + z * sigma

/-- The function `normal_estimate` (main.cpp lines 56-73): the real value
`normal_val` converted to `Pixel`, `none` where the conversion is
undefined behaviour. -/
noncomputable def normal_estimate (greyscale : List ℕ) (width height : ℕ)
    (ratio : ℚ) : Option ℕ :=
  toPixelR (normal_val greyscale width height ratio)

/-- The rational value `min + (max - min) * percentage` computed by
`weighted_estimate` (main.cpp lines 84-103) before the final conversion to
`Pixel`.  For `ratio > 0.5` it interpolates between the truncated average
and `(1 << BIT_DEPTH) - 1` with fraction `(ratio - 0.5) / 0.5`; otherwise
between `0` and the average with fraction `ratio / 0.5`.  The subtraction
`max - min` is promoted `int` arithmetic, hence exact. -/
def weighted_val (greyscale : List ℕ) (width height : ℕ) (ratio : ℚ) : ℚ :=
  let average := averagePixel greyscale width height
  let mn : ℕ := if ratio > 1 / 2 then average else 0
  let mx : ℕ := if ratio > 1 / 2 then 2 ^ BIT_DEPTH - 1 else average
  let ratio2 : ℚ := if ratio > 1 / 2 then ratio - 1 / 2 else ratio
  let percentage : ℚ := ratio2 / (1 / 2)
  (mn : ℚ) + ((mx : ℚ) - (mn : ℚ)) * percentage

/-- The C++ conversion of the float result of `weighted_estimate` to the
`Pixel` type (main.cpp line 102), with the same undefined-behaviour
boundary as `toPixelR`. -/
def toPixelQ (x : ℚ) : Option ℕ :=
  if -1 < x ∧ x < 2 ^ BIT_DEPTH then some (Int.floor x).toNat else none

/-- The function `weighted_estimate` (main.cpp lines 84-103): the value
`weighted_val` converted to `Pixel`, `none` where the conversion is
undefined behaviour. -/
def weighted_estimate (greyscale : List ℕ) (width height : ℕ)
    (ratio : ℚ) : Option ℕ :=
  toPixelQ (weighted_val greyscale width height ratio)

/-- The per-pixel binarization step of the export loop (main.cpp lines
290-299): a pixel strictly above the threshold becomes
`(1 << BIT_DEPTH) - 1`, strictly below becomes `0`, and a pixel equal to
the threshold becomes `0` unless it already equals `0` or the maximum
value, in which case it is left unchanged. -/
def binarize (threshold p : ℕ) : ℕ :=
  if p > threshold then 2 ^ BIT_DEPTH - 1
  else if p < threshold then 0
  else if ¬(p = 0 ∨ p = 2 ^ BIT_DEPTH - 1) then 0
  else p

/-- The buffer contents seen by the harness of `main` (main.cpp lines
193-300): the buffer just before and just after each of the six estimator
calls, the thresholds they return, and the buffer fed to the binarization
loop together with its result. -/
structure TraceData where
  preCounting : List ℕ
  postCounting : List ℕ
  preStd : List ℕ
  postStd : List ℕ
  preNth : List ℕ
  postNth : List ℕ
  preNormal : List ℕ
  postNormal : List ℕ
  preWeighted : List ℕ
  postWeighted : List ℕ
  preUniform : List ℕ
  postUniform : List ℕ
  preBinarize : List ℕ
  tCounting : ℕ
  tStd : Option ℕ
  tNth : Option ℕ
  tNormal : Option ℕ
  tWeighted : Option ℕ
  tUniform : ℕ
  final : List ℕ

/-- The fixed invocation sequence of `main` (main.cpp lines 206-300),
with the compile-time constants `Ratio` and `SampleRate` as parameters:
`copy` is the pristine copy saved by `memcpy(copy, image, width*height)`
(one byte per pixel at `BIT_DEPTH = 8`); after each destructive estimator
(`std_sort`, `nth_element_sort`) the buffer is restored by
`memcpy(image, copy, width*height)`, modelled as replacing the first
`width * height` pixels with `copy`; the non-destructive estimators do not
write through the buffer pointer, so the buffer is unchanged across their
calls.  The last threshold (`uniform_sample`) drives the binarization
loop over the first `width * height` pixels. -/
noncomputable def mainTrace (image : List ℕ) (width height : ℕ)
    (ratio : ℚ) (sample_rate : ℕ) : TraceData :=
  let image_size := width * height
  let copy := image.take image_size
  let restore := fun (cur : List ℕ) => copy ++ cur.drop image_size
  let b0 := image
  let tCounting := counting_sort b0 width height ratio
  let b1 := b0
  let rStd := std_sort b1 width height ratio
  let b2 := restore rStd.1
  let rNth := nth_element_sort b2 width height ratio
  let b3 := restore rNth.1
  let tNormal := normal_estimate b3 width height ratio
  let b4 := b3
  let tWeighted := weighted_estimate b4 width height ratio
  let b5 := b4
  let tUniform := uniform_sample b5 width height sample_rate ratio
  let b6 := b5
  let final := (b6.take image_size).map (binarize tUniform) ++ b6.drop image_size
  ⟨b0, b1, b1, rStd.1, b2, rNth.1, b3, b3, b4, b4, b5, b5, b6,
    tCounting, rStd.2, rNth.2, tNormal, tWeighted, tUniform, final⟩

/-! Helper lemmas shared by the claim theorems. -/

/-- Evaluation rule for `truncQ`: a rational that equals a natural number
truncates to it. -/
theorem truncQ_eq_of (q : ℚ) (n : ℕ) (h : q = (n : ℚ)) : truncQ q = n := by
  rw [truncQ, h]
  simp

/-- With an empty cutoff the accumulation loop exits immediately. -/
theorem walkLoop_zero (count : ℕ → ℕ) (fuel total index : ℕ) :
    walkLoop count 0 (fuel + 1) total index = index := by
  simp [walkLoop]

/-- With stride 1 the sampling loop visits every pixel. -/
theorem sampleAux_one (l : List ℕ) : sampleAux 1 l 0 = l := by
  induction l with
  | nil => rfl
  | cons x xs ih => rw [sampleAux, ih]

/-- With stride 1 the sampled buffer is the whole buffer. -/
theorem sampleEvery_one (l : List ℕ) : sampleEvery l 1 = l := by
  rw [sampleEvery, sampleAux_one]

/-! Claim theorems. -/

/-- C1, counterexample: on the 1x5 buffer [10, 20, 30, 40, 50] with ratio
0.4 (cutoff 2), std_sort and nth_element_sort return 30, but counting_sort
returns 20, so the three exact estimators do not all return the same
threshold. -/
theorem c1_counterexample :
    counting_sort [10, 20, 30, 40, 50] 5 1 (2/5) = 20 ∧
    (std_sort [10, 20, 30, 40, 50] 5 1 (2/5)).2 = some 30 ∧
    (nth_element_sort [10, 20, 30, 40, 50] 5 1 (2/5)).2 = some 30 ∧
    counting_sort [10, 20, 30, 40, 50] 5 1 (2/5) ≠ 30 := by
  have hc : truncQ (((5 * 1 : ℕ) : ℚ) * (2/5)) = 2 :=
    truncQ_eq_of _ 2 (by norm_num)
  refine ⟨?_, ?_, ?_, ?_⟩ <;>
    simp only [counting_sort, std_sort, nth_element_sort, hc] <;> decide

/-- C1, amended: std_sort and nth_element_sort return the same threshold
for the same buffer and nonnegative ratio (both read the element that
sorted order puts at index floor(N * ratio)); on the scenario buffer
[10, 20, 30, 40, 50] with ratio 0.4 both return 30, while counting_sort
returns 20, the floor(N * ratio)-th smallest value, one rank below. -/
theorem c1_amended :
    (∀ (b : List ℕ) (w h : ℕ) (r : ℚ), 0 ≤ r →
        (std_sort b w h r).2 = (nth_element_sort b w h r).2) ∧
    (std_sort [10, 20, 30, 40, 50] 5 1 (2/5)).2 = some 30 ∧
    (nth_element_sort [10, 20, 30, 40, 50] 5 1 (2/5)).2 = some 30 ∧
    counting_sort [10, 20, 30, 40, 50] 5 1 (2/5) = 20 := by
  have hc : truncQ (((5 * 1 : ℕ) : ℚ) * (2/5)) = 2 :=
    truncQ_eq_of _ 2 (by norm_num)
  refine ⟨fun b w h r _ => rfl, ?_, ?_, ?_⟩ <;>
    simp only [counting_sort, std_sort, nth_element_sort, hc] <;> decide

/-- C1, witness for the amended claim at concrete inputs. -/
theorem c1_witness :
    (std_sort [1, 2] 2 1 (1/2)).2 = (nth_element_sort [1, 2] 2 1 (1/2)).2 ∧
    counting_sort [10, 20, 30, 40, 50] 5 1 (2/5) = 20 :=
  ⟨c1_amended.1 [1, 2] 2 1 (1/2) (by norm_num), c1_amended.2.2.2⟩

/-- C3, code bug: with ratio 0 on the 1x1 buffer [10] the cutoff is 0, the
loop never runs, index - 1 wraps in size_t, and counting_sort returns the
maximum pixel value 255 instead of a threshold at or below the minimum
pixel 10; and with ratio 1 std_sort reads one past the end of the buffer
instead of returning a threshold at or above the maximum. -/
theorem c3_code_bug :
    counting_sort [10] 1 1 0 = 2 ^ BIT_DEPTH - 1 ∧
    (std_sort [10] 1 1 1).2 = none := by
  constructor
  · have hc : truncQ (((1 * 1 : ℕ) : ℚ) * 0) = 0 :=
      truncQ_eq_of _ 0 (by norm_num)
    simp only [counting_sort, hc]
    decide
  · have hc : truncQ (((1 * 1 : ℕ) : ℚ) * 1) = 1 :=
      truncQ_eq_of _ 1 (by norm_num)
    simp only [std_sort, hc]
    decide

/-- C4: with sample_rate 1, uniform_sample counts every pixel and scales
the cutoff by image_size / 1, so it returns exactly the counting_sort
threshold for every buffer and ratio in [0, 1]. -/
theorem c4_uniform_sample_one (b : List ℕ) (w h : ℕ) (r : ℚ)
    (h0 : 0 ≤ r) (h1 : r ≤ 1) :
    uniform_sample b w h 1 r = counting_sort b w h r := by
  simp only [uniform_sample, counting_sort, sampleEvery_one, Nat.div_one]

/-- C4, witness at a concrete buffer and ratio. -/
theorem c4_witness :
    uniform_sample [5, 6] 2 1 1 (1/2) = counting_sort [5, 6] 2 1 (1/2) :=
  c4_uniform_sample_one [5, 6] 2 1 (1/2) (by norm_num) (by norm_num)

/-- C9: whenever the truncated cutoff is 0 (for example ratio 0 or an
empty image, and in uniform_sample a scaled cutoff that truncates to 0),
the accumulation loop never runs, index - 1 wraps in size_t arithmetic,
the max clamp has no effect, and the function returns SIZE_MAX truncated
to the pixel type, i.e. 2 ^ BIT_DEPTH - 1. -/
theorem c9_cutoff_zero_wrap (b : List ℕ) (w h k : ℕ) (r : ℚ) :
    (truncQ (((w * h : ℕ) : ℚ) * r) = 0 →
        counting_sort b w h r = 2 ^ BIT_DEPTH - 1) ∧
    (truncQ (((w * h / k : ℕ) : ℚ) * r) = 0 →
        uniform_sample b w h k r = 2 ^ BIT_DEPTH - 1) := by
  constructor
  · intro hc
    simp only [counting_sort, hc, walkLoop_zero]
    decide
  · intro hc
    simp only [uniform_sample, hc, walkLoop_zero]
    decide

/-- C9, witness: a 1x1 buffer with ratio 0 makes both cutoffs 0, and both
histogram estimators return 255. -/
theorem c9_witness :
    counting_sort [10] 1 1 0 = 2 ^ BIT_DEPTH - 1 ∧
    uniform_sample [10] 1 1 10 0 = 2 ^ BIT_DEPTH - 1 :=
  ⟨(c9_cutoff_zero_wrap [10] 1 1 10 0).1 (truncQ_eq_of _ 0 (by norm_num)),
   (c9_cutoff_zero_wrap [10] 1 1 10 0).2 (truncQ_eq_of _ 0 (by norm_num))⟩

/-- C5: when floor(N * ratio) < N, std_sort replaces the buffer by its
ascending sort and returns the element at index floor(N * ratio) of the
sorted buffer, i.e. the (floor(N * ratio) + 1)-th smallest pixel value:
for any sorted permutation s of the buffer, the post-call buffer is s and
the returned value is the element of s at that index. -/
theorem c5_std_sort_correct (b : List ℕ) (w h : ℕ) (r : ℚ) (s : List ℕ)
    (hlen : b.length = w * h)
    (hn : truncQ (((w * h : ℕ) : ℚ) * r) < w * h)
    (hperm : s.Perm b) (hsorted : s.Sorted (· ≤ ·)) :
    (std_sort b w h r).1 = s ∧
    (std_sort b w h r).2 =
      some (s.getD (truncQ (((w * h : ℕ) : ℚ) * r)) 0) := by
  have htake : b.take (w * h) = b := by
    rw [← hlen]
    exact b.take_length
  have hdrop : b.drop (w * h) = [] := by
    rw [← hlen]
    exact b.drop_length
  have hs : (b.take (w * h)).insertionSort (· ≤ ·) = s := by
    rw [htake]
    exact List.eq_of_perm_of_sorted
      ((List.perm_insertionSort _ b).trans hperm.symm)
      (List.sorted_insertionSort _ b) hsorted
  have hslen : truncQ (((w * h : ℕ) : ℚ) * r) < s.length := by
    rw [hperm.length_eq, hlen]
    exact hn
  constructor
  · simp only [std_sort, hs, hdrop, List.append_nil]
  · simp only [std_sort, hs]
    rw [List.get?_eq_get hslen, List.getD_eq_get s 0 hslen]

/-- C5, witness: sorting [3, 1, 2] as a 3x1 image with ratio 1/3 yields
the sorted buffer [1, 2, 3] and the threshold 2 at index 1. -/
theorem c5_witness :
    (std_sort [3, 1, 2] 3 1 (1/3)).1 = [1, 2, 3] ∧
    (std_sort [3, 1, 2] 3 1 (1/3)).2 =
      some (([1, 2, 3] : List ℕ).getD (truncQ (((3 * 1 : ℕ) : ℚ) * (1/3))) 0) :=
  c5_std_sort_correct [3, 1, 2] 3 1 (1/3) [1, 2, 3] (by decide)
    (by rw [truncQ_eq_of _ 1 (by norm_num)]; norm_num)
    (by decide) (by decide)

/-- C10: std_sort and nth_element_sort read the element at index
floor(N * ratio) after (partially) sorting; under the precondition
floor(N * ratio) < N the read is in bounds and both functions return the
same value, while for ratio 1 on a non-empty buffer the index equals N,
one past the end, and the read is out of bounds (none in the model). -/
theorem c10_index_bounds (b : List ℕ) (w h : ℕ) (hlen : b.length = w * h) :
    (∀ r : ℚ, truncQ (((w * h : ℕ) : ℚ) * r) < w * h →
        ∃ v, (std_sort b w h r).2 = some v ∧
          (nth_element_sort b w h r).2 = some v) ∧
    (0 < w * h →
        (std_sort b w h 1).2 = none ∧ (nth_element_sort b w h 1).2 = none) := by
  have htake : b.take (w * h) = b := by
    rw [← hlen]
    exact b.take_length
  have hsortlen : ((b.take (w * h)).insertionSort (· ≤ ·)).length = w * h := by
    rw [htake, List.length_insertionSort, hlen]
  constructor
  · intro r hr
    have hr2 : truncQ (((w * h : ℕ) : ℚ) * r) <
        ((b.take (w * h)).insertionSort (· ≤ ·)).length := by
      rw [hsortlen]
      exact hr
    exact ⟨_, by simp only [std_sort]; rw [List.get?_eq_get hr2],
      by simp only [nth_element_sort]; rw [List.get?_eq_get hr2]⟩
  · intro _
    have hone : truncQ (((w * h : ℕ) : ℚ) * 1) = w * h := by
      rw [truncQ_eq_of _ (w * h) (by rw [mul_one])]
    have hnone : ((b.take (w * h)).insertionSort (· ≤ ·)).get? (w * h) = none := by
      rw [List.get?_eq_none]
      rw [hsortlen]
    constructor
    · simp only [std_sort, hone, hnone]
    · simp only [nth_element_sort, hone, hnone]

/-- C10, witness: for the 2x1 buffer [4, 5], ratio 0 reads in bounds and
ratio 1 reads out of bounds in both sorting estimators. -/
theorem c10_witness :
    (∃ v, (std_sort [4, 5] 2 1 0).2 = some v ∧
      (nth_element_sort [4, 5] 2 1 0).2 = some v) ∧
    ((std_sort [4, 5] 2 1 1).2 = none ∧
      (nth_element_sort [4, 5] 2 1 1).2 = none) :=
  ⟨(c10_index_bounds [4, 5] 2 1 (by decide)).1 0
      (by rw [truncQ_eq_of _ 0 (by norm_num)]; norm_num),
   (c10_index_bounds [4, 5] 2 1 (by decide)).2 (by norm_num)⟩

/-- C2, counterexample: with threshold T equal to the maximum value 255,
the synthetic buffer [0, T, T, max] is [0, 255, 255, 255], and the
binarization loop leaves the tied pixels at 255 (they already equal the
maximum), producing [0, 255, 255, 255] instead of the claimed
[0, 0, 0, 255]. -/
theorem c2_counterexample :
    List.map (binarize (2 ^ BIT_DEPTH - 1))
        [0, 2 ^ BIT_DEPTH - 1, 2 ^ BIT_DEPTH - 1, 2 ^ BIT_DEPTH - 1] =
      [0, 2 ^ BIT_DEPTH - 1, 2 ^ BIT_DEPTH - 1, 2 ^ BIT_DEPTH - 1] ∧
    List.map (binarize (2 ^ BIT_DEPTH - 1))
        [0, 2 ^ BIT_DEPTH - 1, 2 ^ BIT_DEPTH - 1, 2 ^ BIT_DEPTH - 1] ≠
      [0, 0, 0, 2 ^ BIT_DEPTH - 1] := by
  constructor <;> decide

/-- C2, amended: each pixel maps to max if above the threshold, to 0 if
below, and on a tie to 0 unless it is already exactly 0 or exactly max,
in which case it is unchanged; consequently every output pixel is 0 or
max, and for every threshold T strictly below the maximum value the
synthetic buffer [0, T, T, max] becomes [0, 0, 0, max] (for T = max the
tied pixels stay at max, which is the counterexample above). -/
theorem c2_amended :
    (∀ threshold p : ℕ, binarize threshold p =
        if threshold < p then 2 ^ BIT_DEPTH - 1
        else if p < threshold then 0
        else if p = 0 ∨ p = 2 ^ BIT_DEPTH - 1 then p
        else 0) ∧
    (∀ threshold p : ℕ,
        binarize threshold p = 0 ∨ binarize threshold p = 2 ^ BIT_DEPTH - 1) ∧
    (∀ threshold : ℕ, threshold < 2 ^ BIT_DEPTH - 1 →
        List.map (binarize threshold)
            [0, threshold, threshold, 2 ^ BIT_DEPTH - 1] =
          [0, 0, 0, 2 ^ BIT_DEPTH - 1]) := by
  refine ⟨fun threshold p => ?_, fun threshold p => ?_, fun threshold ht => ?_⟩
  · simp only [binarize, gt_iff_lt, ite_not]
  · simp only [binarize, BIT_DEPTH]
    split_ifs <;> tauto
  · have e : (2 : ℕ) ^ BIT_DEPTH - 1 = 255 := by norm_num [BIT_DEPTH]
    rw [e] at ht ⊢
    have h0 : binarize threshold 0 = 0 := by
      simp only [binarize, e]
      split_ifs <;> omega
    have hT : binarize threshold threshold = 0 := by
      simp only [binarize, e]
      split_ifs <;> omega
    have hM : binarize threshold 255 = 255 := by
      simp only [binarize, e]
      split_ifs <;> omega
    simp [h0, hT, hM]

/-- C2, witness for the amended claim at a concrete threshold and pixel. -/
theorem c2_witness :
    binarize 7 9 = 2 ^ BIT_DEPTH - 1 ∧
    (binarize 7 7 = 0 ∨ binarize 7 7 = 2 ^ BIT_DEPTH - 1) ∧
    List.map (binarize 7) [0, 7, 7, 2 ^ BIT_DEPTH - 1] =
      [0, 0, 0, 2 ^ BIT_DEPTH - 1] :=
  ⟨by rw [c2_amended.1 7 9]; decide,
   c2_amended.2.1 7 7,
   c2_amended.2.2 7 (by decide)⟩

/-- Full evaluation of the harness trace when the buffer length matches
width * height: every pre-call buffer is the original image because the
pristine copy is written back after each destructive estimator, the
destructive calls leave the sorted buffer behind before the restore, and
each threshold is the estimator applied to the original image. -/
theorem mainTrace_eq (image : List ℕ) (w h : ℕ) (r : ℚ) (k : ℕ)
    (hlen : image.length = w * h) :
    mainTrace image w h r k =
      ⟨image, image, image, image.insertionSort (· ≤ ·), image,
        image.insertionSort (· ≤ ·), image, image, image, image, image,
        image, image,
        counting_sort image w h r, (std_sort image w h r).2,
        (nth_element_sort image w h r).2, normal_estimate image w h r,
        weighted_estimate image w h r, uniform_sample image w h k r,
        image.map (binarize (uniform_sample image w h k r))⟩ := by
  have htake : image.take (w * h) = image := by
    rw [← hlen]
    exact image.take_length
  have hdrop : image.drop (w * h) = [] := by
    rw [← hlen]
    exact image.drop_length
  have hsortlen : (image.insertionSort (· ≤ ·)).length = w * h := by
    rw [List.length_insertionSort, hlen]
  have hsortdrop : (image.insertionSort (· ≤ ·)).drop (w * h) = [] := by
    rw [← hsortlen]
    exact List.drop_length _
  simp only [mainTrace, std_sort, nth_element_sort, htake, hdrop, hsortdrop,
    List.append_nil]

/-- C6: in the fixed invocation sequence of the harness, the buffer is
restored from the pristine copy after each destructive estimator and
before the next estimator runs, so all six estimator invocations (and the
final binarization pass) see buffer contents equal to the original decoded
image. -/
theorem c6_harness_restores (image : List ℕ) (w h : ℕ) (r : ℚ) (k : ℕ)
    (hlen : image.length = w * h) :
    (mainTrace image w h r k).preCounting = image ∧
    (mainTrace image w h r k).preStd = image ∧
    (mainTrace image w h r k).preNth = image ∧
    (mainTrace image w h r k).preNormal = image ∧
    (mainTrace image w h r k).preWeighted = image ∧
    (mainTrace image w h r k).preUniform = image ∧
    (mainTrace image w h r k).preBinarize = image := by
  rw [mainTrace_eq image w h r k hlen]
  exact ⟨rfl, rfl, rfl, rfl, rfl, rfl, rfl⟩

/-- C6, witness at a concrete image and parameters. -/
theorem c6_witness :
    (mainTrace [1, 2] 2 1 (1/2) 3).preCounting = [1, 2] ∧
    (mainTrace [1, 2] 2 1 (1/2) 3).preStd = [1, 2] ∧
    (mainTrace [1, 2] 2 1 (1/2) 3).preNth = [1, 2] ∧
    (mainTrace [1, 2] 2 1 (1/2) 3).preNormal = [1, 2] ∧
    (mainTrace [1, 2] 2 1 (1/2) 3).preWeighted = [1, 2] ∧
    (mainTrace [1, 2] 2 1 (1/2) 3).preUniform = [1, 2] ∧
    (mainTrace [1, 2] 2 1 (1/2) 3).preBinarize = [1, 2] :=
  c6_harness_restores [1, 2] 2 1 (1/2) 3 (by decide)

/-- C8: the four non-destructive estimators leave the buffer unchanged
across their calls in the harness sequence, and each threshold they
produce is the pure function of the original buffer contents, width,
height and ratio (so calling counting_sort again on the buffer it left
behind returns the same threshold). -/
theorem c8_nondestructive (image : List ℕ) (w h : ℕ) (r : ℚ) (k : ℕ)
    (hlen : image.length = w * h) :
    (mainTrace image w h r k).postCounting = (mainTrace image w h r k).preCounting ∧
    (mainTrace image w h r k).postNormal = (mainTrace image w h r k).preNormal ∧
    (mainTrace image w h r k).postWeighted = (mainTrace image w h r k).preWeighted ∧
    (mainTrace image w h r k).postUniform = (mainTrace image w h r k).preUniform ∧
    (mainTrace image w h r k).tCounting = counting_sort image w h r ∧
    (mainTrace image w h r k).tNormal = normal_estimate image w h r ∧
    (mainTrace image w h r k).tWeighted = weighted_estimate image w h r ∧
    (mainTrace image w h r k).tUniform = uniform_sample image w h k r ∧
    counting_sort (mainTrace image w h r k).postCounting w h r =
      (mainTrace image w h r k).tCounting := by
  rw [mainTrace_eq image w h r k hlen]
  exact ⟨rfl, rfl, rfl, rfl, rfl, rfl, rfl, rfl, rfl⟩

/-- C8, witness at a concrete image and parameters. -/
theorem c8_witness :
    (mainTrace [3, 4] 2 1 (1/3) 2).postCounting = (mainTrace [3, 4] 2 1 (1/3) 2).preCounting ∧
    (mainTrace [3, 4] 2 1 (1/3) 2).postNormal = (mainTrace [3, 4] 2 1 (1/3) 2).preNormal ∧
    (mainTrace [3, 4] 2 1 (1/3) 2).postWeighted = (mainTrace [3, 4] 2 1 (1/3) 2).preWeighted ∧
    (mainTrace [3, 4] 2 1 (1/3) 2).postUniform = (mainTrace [3, 4] 2 1 (1/3) 2).preUniform ∧
    (mainTrace [3, 4] 2 1 (1/3) 2).tCounting = counting_sort [3, 4] 2 1 (1/3) ∧
    (mainTrace [3, 4] 2 1 (1/3) 2).tNormal = normal_estimate [3, 4] 2 1 (1/3) ∧
    (mainTrace [3, 4] 2 1 (1/3) 2).tWeighted = weighted_estimate [3, 4] 2 1 (1/3) ∧
    (mainTrace [3, 4] 2 1 (1/3) 2).tUniform = uniform_sample [3, 4] 2 1 2 (1/3) ∧
    counting_sort (mainTrace [3, 4] 2 1 (1/3) 2).postCounting 2 1 (1/3) =
      (mainTrace [3, 4] 2 1 (1/3) 2).tCounting :=
  c8_nondestructive [3, 4] 2 1 (1/3) 2 (by decide)

/-- The truncated average is below the maximum pixel value. -/
theorem averagePixel_le (b : List ℕ) (w h : ℕ) :
    averagePixel b w h ≤ 2 ^ BIT_DEPTH - 1 := by
  have h2 : averagePixel b w h < 2 ^ BIT_DEPTH := by
    rw [averagePixel]
    exact Nat.mod_lt _ (by norm_num [BIT_DEPTH])
  norm_num [BIT_DEPTH] at h2 ⊢
  omega

/-- Cast form of the average bound. -/
theorem averagePixel_cast_le (b : List ℕ) (w h : ℕ) :
    ((averagePixel b w h : ℕ) : ℚ) ≤ 255 := by
  have hb := averagePixel_le b w h
  norm_num [BIT_DEPTH] at hb
  exact_mod_cast hb

/-- Closed form of weighted_val on the low branch (ratio not above 0.5):
interpolation between 0 and the average. -/
theorem weighted_val_of_le (b : List ℕ) (w h : ℕ) {r : ℚ}
    (hr : ¬(1 / 2 < r)) :
    weighted_val b w h r = (averagePixel b w h : ℚ) * (2 * r) := by
  simp only [weighted_val, gt_iff_lt, if_neg hr]
  push_cast
  ring

/-- Closed form of weighted_val on the high branch (ratio above 0.5):
interpolation between the average and 255. -/
theorem weighted_val_of_gt (b : List ℕ) (w h : ℕ) {r : ℚ}
    (hr : 1 / 2 < r) :
    weighted_val b w h r = (averagePixel b w h : ℚ) +
      (255 - (averagePixel b w h : ℚ)) * (2 * (r - 1 / 2)) := by
  have e : (2 : ℕ) ^ BIT_DEPTH - 1 = 255 := by norm_num [BIT_DEPTH]
  simp only [weighted_val, gt_iff_lt, if_pos hr, e]
  push_cast
  ring

/-- The weighted interpolation value is nonnegative for nonnegative ratio. -/
theorem weighted_val_nonneg (b : List ℕ) (w h : ℕ) {r : ℚ} (h0 : 0 ≤ r) :
    0 ≤ weighted_val b w h r := by
  have hA0 : (0 : ℚ) ≤ (averagePixel b w h : ℚ) := Nat.cast_nonneg _
  have hA := averagePixel_cast_le b w h
  by_cases hr : 1 / 2 < r
  · rw [weighted_val_of_gt b w h hr]
    nlinarith
  · rw [weighted_val_of_le b w h hr]
    nlinarith

/-- The weighted interpolation value is at most 255 for ratio in [0, 1]. -/
theorem weighted_val_le_255 (b : List ℕ) (w h : ℕ) {r : ℚ}
    (h0 : 0 ≤ r) (h1 : r ≤ 1) :
    weighted_val b w h r ≤ 255 := by
  have hA0 : (0 : ℚ) ≤ (averagePixel b w h : ℚ) := Nat.cast_nonneg _
  have hA := averagePixel_cast_le b w h
  by_cases hr : 1 / 2 < r
  · rw [weighted_val_of_gt b w h hr]
    nlinarith
  · rw [weighted_val_of_le b w h hr]
    have hr2 : r ≤ 1 / 2 := not_lt.mp hr
    nlinarith

/-- The weighted interpolation value is monotone in the ratio. -/
theorem weighted_val_mono (b : List ℕ) (w h : ℕ) {r1 r2 : ℚ}
    (h0 : 0 ≤ r1) (h12 : r1 ≤ r2) :
    weighted_val b w h r1 ≤ weighted_val b w h r2 := by
  have hA0 : (0 : ℚ) ≤ (averagePixel b w h : ℚ) := Nat.cast_nonneg _
  have hA := averagePixel_cast_le b w h
  by_cases h2 : 1 / 2 < r2
  · by_cases h1 : 1 / 2 < r1
    · rw [weighted_val_of_gt b w h h1, weighted_val_of_gt b w h h2]
      nlinarith
    · rw [weighted_val_of_le b w h h1, weighted_val_of_gt b w h h2]
      have hr1 : r1 ≤ 1 / 2 := not_lt.mp h1
      nlinarith
  · have h1 : ¬(1 / 2 < r1) := fun hh => h2 (lt_of_lt_of_le hh h12)
    rw [weighted_val_of_le b w h h1, weighted_val_of_le b w h h2]
    nlinarith

/-- For ratio in [0, 1] the float-to-pixel conversion at the end of
weighted_estimate is defined and yields the floor of the value. -/
theorem weighted_estimate_eq (b : List ℕ) (w h : ℕ) {r : ℚ}
    (h0 : 0 ≤ r) (h1 : r ≤ 1) :
    weighted_estimate b w h r =
      some (Int.floor (weighted_val b w h r)).toNat := by
  rw [weighted_estimate, toPixelQ, if_pos]
  constructor
  · have := weighted_val_nonneg b w h h0
    linarith
  · have := weighted_val_le_255 b w h h0 h1
    norm_num [BIT_DEPTH]
    linarith

/-- Monotone combination used for the normal estimator. -/
theorem add_sqrt_two_mul_mono (A s : ℝ) (hs : 0 ≤ s) {p q : ℝ}
    (hpq : p ≤ q) :
    A + Real.sqrt 2 * p * s ≤ A + Real.sqrt 2 * q * s := by
  have key : 0 ≤ Real.sqrt 2 * (q - p) * s :=
    mul_nonneg (mul_nonneg (Real.sqrt_nonneg 2) (sub_nonneg.mpr hpq)) hs
  nlinarith [key]

/-- The real value computed by normal_estimate is monotone in the ratio
on nonnegative ratios (mean and deviation do not depend on the ratio, the
z polynomial is monotone, and sigma is a nonnegative square root). -/
theorem normal_val_mono (b : List ℕ) (w h : ℕ) {r1 r2 : ℚ}
    (h0 : 0 ≤ r1) (h12 : r1 ≤ r2) :
    normal_val b w h r1 ≤ normal_val b w h r2 := by
  have hr0 : (0 : ℝ) ≤ (r1 : ℝ) := by exact_mod_cast h0
  have hr : (r1 : ℝ) ≤ (r2 : ℝ) := by exact_mod_cast h12
  have h3 := pow_le_pow_left hr0 hr 3
  have h5 := pow_le_pow_left hr0 hr 5
  have h7 := pow_le_pow_left hr0 hr 7
  have hpoly : (r1 : ℝ) + (r1 : ℝ) ^ 3 + (r1 : ℝ) ^ 5 + (r1 : ℝ) ^ 7 ≤
      (r2 : ℝ) + (r2 : ℝ) ^ 3 + (r2 : ℝ) ^ 5 + (r2 : ℝ) ^ 7 := by
    linarith
  simp only [normal_val]
  exact add_sqrt_two_mul_mono _ _ (Real.sqrt_nonneg _) hpoly

/-- Whatever pixel the conversion of a real value returns is within the
representable range. -/
theorem toPixelR_getD_le (x : ℝ) :
    (toPixelR x).getD 0 ≤ 2 ^ BIT_DEPTH - 1 := by
  rw [toPixelR]
  split_ifs with hx
  · simp only [Option.getD_some]
    have h2 : x < 256 := by
      have := hx.2
      norm_num [BIT_DEPTH] at this
      exact this
    have hlt : Int.floor x < 256 := Int.floor_lt.mpr (by exact_mod_cast h2)
    norm_num [BIT_DEPTH]
    omega
  · simp

/-- C7, counterexample: on the 2x1 buffer [0, 250] with ratio 1 the mean
is 125 and sigma is exactly 125, so the value before conversion is
125 + 500 * sqrt 2 > 255; the float-to-pixel conversion overflows
(undefined behaviour, none in the model), so normal_estimate does not
return a value in the representable range. -/
theorem c7_counterexample : normal_estimate [0, 250] 2 1 1 = none := by
  have havg : averagePixel [0, 250] 2 1 = 125 := by decide
  have hval : normal_val [0, 250] 2 1 1 = 125 + Real.sqrt 2 * 4 * 125 := by
    simp only [normal_val, havg]
    have hsum : ((([0, 250] : List ℕ).take (2 * 1)).map
        (fun p => ((p : ℤ) - ((125 : ℕ) : ℤ)) ^ 2)).sum = (31250 : ℤ) := by
      decide
    rw [hsum]
    have harg : (((31250 : ℤ) : ℝ)) * (1 / ((2 * 1 : ℕ) : ℝ)) =
        (125 : ℝ) ^ 2 := by
      push_cast
      norm_num
    rw [harg, Real.sqrt_sq (by norm_num : (0 : ℝ) ≤ 125)]
    push_cast
    ring
  have hs : (1.4 : ℝ) ≤ Real.sqrt 2 := by
    rw [Real.le_sqrt (by norm_num) (by norm_num)]
    norm_num
  have hbig : ¬(-1 < normal_val [0, 250] 2 1 1 ∧
      normal_val [0, 250] 2 1 1 < 2 ^ BIT_DEPTH) := by
    intro hcon
    have h2 := hcon.2
    rw [hval] at h2
    norm_num [BIT_DEPTH] at h2
    nlinarith
  rw [normal_estimate, toPixelR, if_neg hbig]

/-- C7, amended: weighted_estimate always converts successfully for
ratios in [0, 1], its result is monotone in the ratio and within
[0, 2 ^ BIT_DEPTH - 1]; normal_estimate is monotone in the ratio at the
level of the real value it truncates, and whenever its conversion is
defined the returned pixel is within the representable range - but the
conversion itself can overflow (see the counterexample), so the range
guarantee of the original claim holds only conditionally for
normal_estimate. -/
theorem c7_amended (b : List ℕ) (w h : ℕ) (r1 r2 : ℚ)
    (hlen : b.length = w * h) (hpos : 0 < w * h)
    (h0 : 0 ≤ r1) (h12 : r1 ≤ r2) (h1 : r2 ≤ 1) :
    (weighted_estimate b w h r1).isSome = true ∧
    (weighted_estimate b w h r2).isSome = true ∧
    (weighted_estimate b w h r1).getD 0 ≤ (weighted_estimate b w h r2).getD 0 ∧
    (weighted_estimate b w h r2).getD 0 ≤ 2 ^ BIT_DEPTH - 1 ∧
    normal_val b w h r1 ≤ normal_val b w h r2 ∧
    (normal_estimate b w h r1).getD 0 ≤ 2 ^ BIT_DEPTH - 1 ∧
    (normal_estimate b w h r2).getD 0 ≤ 2 ^ BIT_DEPTH - 1 := by
  have h0b : 0 ≤ r2 := le_trans h0 h12
  have h1a : r1 ≤ 1 := le_trans h12 h1
  have he1 := weighted_estimate_eq b w h h0 h1a
  have he2 := weighted_estimate_eq b w h h0b h1
  refine ⟨?_, ?_, ?_, ?_, normal_val_mono b w h h0 h12, ?_, ?_⟩
  · rw [he1]
    rfl
  · rw [he2]
    rfl
  · rw [he1, he2]
    simp only [Option.getD_some]
    exact Int.toNat_le_toNat (Int.floor_le_floor (weighted_val_mono b w h h0 h12))
  · rw [he2]
    simp only [Option.getD_some]
    have hle := weighted_val_le_255 b w h h0b h1
    have hfl : Int.floor (weighted_val b w h r2) ≤ 255 := by
      have := Int.floor_le_floor hle
      simpa using this
    norm_num [BIT_DEPTH]
    omega
  · rw [normal_estimate]
    exact toPixelR_getD_le _
  · rw [normal_estimate]
    exact toPixelR_getD_le _

/-- C7, witness for the amended claim at a concrete buffer and ratios. -/
theorem c7_witness :
    (weighted_estimate [10, 20] 2 1 0).isSome = true ∧
    (weighted_estimate [10, 20] 2 1 1).isSome = true ∧
    (weighted_estimate [10, 20] 2 1 0).getD 0 ≤
      (weighted_estimate [10, 20] 2 1 1).getD 0 ∧
    (weighted_estimate [10, 20] 2 1 1).getD 0 ≤ 2 ^ BIT_DEPTH - 1 ∧
    normal_val [10, 20] 2 1 0 ≤ normal_val [10, 20] 2 1 1 ∧
    (normal_estimate [10, 20] 2 1 0).getD 0 ≤ 2 ^ BIT_DEPTH - 1 ∧
    (normal_estimate [10, 20] 2 1 1).getD 0 ≤ 2 ^ BIT_DEPTH - 1 :=
  c7_amended [10, 20] 2 1 0 1 (by decide) (by decide) (by norm_num)
    (by norm_num) (by norm_num)

end BinaryImage
